import Mathlib

/-!
Verification of the parallel-apply scheduler state kept in
`Relay_log_info` (sql/rpl_rli.h): the replication state flags, the MTS
recovery predicates, the dependency-tracker queue and its teardown, the
group cleanup walk, the committed-group checkpoint queue, the
commit-order manager, and the coordinator group-status machine.

Machine integers (`uint32`, `ulonglong`) are modelled as `Nat` with an
explicit `% 2 ^ w` at the points where the C++ code can overflow or
truncate.  `std::shared_ptr<Log_event_wrapper>` nodes are modelled as an
arena of `next_ev` links addressed by node id.
-/

namespace RplRli

/-! ### Replication state flags (`m_flags : uint32`)

`set_flag`, `get_flag`, `clear_flag` operate on the bit at position
`flag` of the 32-bit field `m_flags`.  The C++ shift `1UL << flag` is
64-bit wide; storing back into the `uint32` field truncates mod `2^32`.
-/

def TWO32 : Nat := 2 ^ 32

def set_flag (m_flags : Nat) (flag : Nat) : Nat :=
  (m_flags ||| (1 <<< flag)) % TWO32

def get_flag (m_flags : Nat) (flag : Nat) : Bool :=
  (m_flags &&& (1 <<< flag)) != 0

def clear_flag (m_flags : Nat) (flag : Nat) : Nat :=
  m_flags &&& ((2 ^ 64 - 1) ^^^ (1 <<< flag))

/-! ### MTS recovery predicates -/

/-- The fields of `Relay_log_info` read by `is_mts_recovery` and
`is_parallel_exec`. -/
structure MtsRecoveryState where
  mts_recovery_group_cnt : Nat
  slave_parallel_workers : Nat

def is_mts_recovery (r : MtsRecoveryState) : Bool :=
  r.mts_recovery_group_cnt != 0

def is_parallel_exec (r : MtsRecoveryState) : Bool :=
  (decide (r.slave_parallel_workers > 0)) && (! is_mts_recovery r)

/-! ### Dependency queue (`dep_queue`, `enqueue_dep`, `dequeue_dep`)

`dep_queue` is a `std::deque` of begin events, here a `List Nat` of node
ids (front = oldest).  Both operations assert ownership of `dep_lock`;
the assertion is modelled as a `lock_owned` guard whose violation is the
`none` outcome. -/

def enqueue_dep (lock_owned : Bool) (dep_queue : List Nat) (begin_event : Nat) :
    Option (List Nat × Bool) :=
  if lock_owned then some (dep_queue ++ [begin_event], true) else none

def dequeue_dep (lock_owned : Bool) (dep_queue : List Nat) :
    Option (Option Nat × List Nat) :=
  if lock_owned then
    match dep_queue with
    | [] => some (none, [])
    | x :: xs => some (some x, xs)
  else none

/-- Enqueue a batch of begin events in order, all under the lock. -/
def enqueue_all (lock_owned : Bool) (dep_queue : List Nat) :
    List Nat → Option (List Nat)
  | [] => some dep_queue
  | e :: es =>
    match enqueue_dep lock_owned dep_queue e with
    | some (q2, _) => enqueue_all lock_owned q2 es
    | none => none

/-- Repeatedly dequeue (fuel-bounded), collecting the events in the order
they come out. -/
def dequeue_all (lock_owned : Bool) : Nat → List Nat → List Nat
  | 0, _ => []
  | fuel + 1, q =>
    match dequeue_dep lock_owned q with
    | some (some x, q2) => x :: dequeue_all lock_owned fuel q2
    | _ => []

theorem enqueue_all_append (es : List Nat) :
    ∀ q : List Nat, enqueue_all true q es = some (q ++ es) := by
  induction es with
  | nil => intro q; simp [enqueue_all]
  | cons e es ih =>
      intro q
      simp [enqueue_all, enqueue_dep, ih]

theorem dequeue_all_id (q : List Nat) : dequeue_all true q.length q = q := by
  induction q with
  | nil => simp [dequeue_all]
  | cons x xs ih => simp [dequeue_all, dequeue_dep, ih]

/-- C4: holding the tracker's mutex, `dequeue_dep` on an empty queue
returns the empty result (`nullptr`) and leaves the queue unchanged; on a
non-empty queue it removes and returns the oldest (front) element; hence
draining a queue built by enqueues yields the events in arrival order. -/
theorem dequeue_dep_fifo (x : Nat) (xs es : List Nat) :
    dequeue_dep true [] = some (none, []) ∧
    dequeue_dep true (x :: xs) = some (some x, xs) ∧
    enqueue_all true [] es = some es ∧
    dequeue_all true es.length es = es := by
  refine ⟨rfl, rfl, ?_, dequeue_all_id es⟩
  simpa using enqueue_all_append es []

/-- C5: under the precondition that the caller holds the tracker's mutex,
`enqueue_dep` appends the begin event at the tail of the pending queue
and returns `true`; it fails exactly when the lock is not held. -/
theorem enqueue_dep_contract (lock_owned : Bool) (q : List Nat) (e : Nat) :
    (lock_owned = true → enqueue_dep lock_owned q e = some (q ++ [e], true)) ∧
    (enqueue_dep lock_owned q e = none ↔ lock_owned = false) := by
  cases lock_owned <;> simp [enqueue_dep]

/-- Witness for C5 at a concrete queue and event. -/
theorem enqueue_dep_contract_witness :
    enqueue_dep true [7] 9 = some ([7, 9], true) :=
  (enqueue_dep_contract true [7] 9).1 rfl

theorem get_flag_eq_testBit (m f : Nat) : get_flag m f = m.testBit f := by
  unfold get_flag
  rw [Nat.one_shiftLeft, Nat.and_two_pow]
  cases h : m.testBit f <;> simp [h, Nat.two_pow_pos f |>.ne']

theorem set_flag_eq_or (m f : Nat) (hm : m < TWO32) (hf : f < 32) :
    set_flag m f = m ||| 2 ^ f := by
  have h2f : (2 : Nat) ^ f < TWO32 := Nat.pow_lt_pow_right one_lt_two hf
  unfold set_flag
  rw [Nat.one_shiftLeft]
  exact Nat.mod_eq_of_lt (Nat.or_lt_two_pow hm h2f)

theorem clear_flag_testBit (m f j : Nat) (hj : j < 64) :
    (clear_flag m f).testBit j = (m.testBit j && decide (j ≠ f)) := by
  unfold clear_flag
  rw [Nat.one_shiftLeft, Nat.testBit_and, Nat.testBit_xor,
    Nat.testBit_two_pow_sub_one, Nat.testBit_two_pow]
  by_cases h : f = j
  · simp [h, hj]
  · simp [h, hj, (Ne.symm h : j ≠ f)]

/-- C10: `set_flag f` makes `get_flag f` true, `clear_flag f` makes it
false, and each leaves `get_flag g` unchanged for every other flag
position `g`. -/
theorem flag_set_clear_get_frame (m f g : Nat)
    (hm : m < TWO32) (hf : f < 32) (hg : g < 32) (hfg : f ≠ g) :
    get_flag (set_flag m f) f = true ∧
    get_flag (clear_flag m f) f = false ∧
    get_flag (set_flag m f) g = get_flag m g ∧
    get_flag (clear_flag m f) g = get_flag m g := by
  have hset := set_flag_eq_or m f hm hf
  refine ⟨?_, ?_, ?_, ?_⟩
  · rw [get_flag_eq_testBit, hset, Nat.testBit_or, Nat.testBit_two_pow]
    simp
  · rw [get_flag_eq_testBit,
      clear_flag_testBit m f f (lt_trans hf (by norm_num))]
    simp
  · rw [get_flag_eq_testBit, get_flag_eq_testBit, hset, Nat.testBit_or,
      Nat.testBit_two_pow]
    simp [hfg]
  · rw [get_flag_eq_testBit, get_flag_eq_testBit,
      clear_flag_testBit m f g (lt_trans hg (by norm_num))]
    simp [Ne.symm hfg]

/-- Witness for C10 at concrete flag word `5`, flag positions `0` and `3`. -/
theorem flag_set_clear_get_frame_witness :
    get_flag (set_flag 5 0) 0 = true ∧
    get_flag (clear_flag 5 0) 0 = false ∧
    get_flag (set_flag 5 0) 3 = get_flag 5 3 ∧
    get_flag (clear_flag 5 0) 3 = get_flag 5 3 :=
  flag_set_clear_get_frame 5 0 3 (by norm_num [TWO32]) (by norm_num)
    (by norm_num) (by norm_num)

/-- C3: `is_mts_recovery` is true exactly when `mts_recovery_group_cnt`
is nonzero, and `is_parallel_exec` is true exactly when the configured
worker count is positive and recovery is not active. -/
theorem recovery_gates_parallel_exec (r : MtsRecoveryState) :
    (is_mts_recovery r = true ↔ r.mts_recovery_group_cnt ≠ 0) ∧
    (is_parallel_exec r = true ↔
      (0 < r.slave_parallel_workers ∧ is_mts_recovery r = false)) := by
  constructor
  · simp [is_mts_recovery]
  · simp [is_parallel_exec]

/-! ### Event-node arena and `cleanup_group`

A group is a chain of `Log_event_wrapper` nodes linked by `next_ev`.
The heap is an arena: position `i` of the list holds node `i`'s
`next_ev` link (`none` = link reset, end of chain, or the node does not
exist).  `cleanup_group` first walks the chain pushing each node on an
explicit stack, then pops the stack resetting each node's `next_ev`,
exactly as the two loops of the source do. -/

def nextOf (arena : List (Option Nat)) (i : Nat) : Option Nat :=
  (arena[i]?).getD none

/-- First loop of `cleanup_group`: follow `next_ev` from the current
event, pushing each visited node id on the stack (head = top).  Fuel
bounds the walk; it runs out only on a chain longer than the fuel. -/
def pushChain (arena : List (Option Nat)) :
    Option Nat → Nat → List Nat → Option (List Nat)
  | none, _, events => some events
  | some _, 0, _ => none
  | some i, fuel + 1, events => pushChain arena (nextOf arena i) fuel (i :: events)

/-- Second loop of `cleanup_group`: pop the stack, resetting `next_ev`
of each popped node. -/
def resetStack : List (Option Nat) → List Nat → List (Option Nat)
  | arena, [] => arena
  | arena, i :: rest => resetStack (arena.set i none) rest

def cleanup_group (arena : List (Option Nat)) (begin_event : Nat) :
    List (Option Nat) :=
  match pushChain arena (some begin_event) (arena.length + 1) [] with
  | some events => resetStack arena events
  | none => arena

/-- The event-node chain of a group: the list of node ids reached from
the begin event by following `next_ev` until a node with no link. -/
inductive IsChain (arena : List (Option Nat)) : Nat → List Nat → Prop
  | last (i : Nat) (h : nextOf arena i = none) : IsChain arena i [i]
  | cons (i j : Nat) (rest : List Nat) (h : nextOf arena i = some j)
      (hrest : IsChain arena j rest) : IsChain arena i (i :: rest)

theorem IsChain.ne_nil {arena : List (Option Nat)} {b : Nat} {ns : List Nat}
    (h : IsChain arena b ns) : ns ≠ [] := by
  cases h <;> simp

theorem pushChain_complete {arena : List (Option Nat)} {b : Nat}
    {ns : List Nat} (hchain : IsChain arena b ns) :
    ∀ fuel, ns.length ≤ fuel → ∀ acc,
      pushChain arena (some b) fuel acc = some (ns.reverse ++ acc) := by
  induction hchain with
  | last i h =>
      intro fuel hfuel acc
      match fuel, hfuel with
      | fuel + 1, _ => simp [pushChain, h]
  | cons i j rest h hrest ih =>
      intro fuel hfuel acc
      match fuel, hfuel with
      | fuel + 1, hfuel =>
          have : rest.length ≤ fuel := by
            simpa [Nat.succ_le_succ_iff] using hfuel
          simp [pushChain, h, ih fuel this (i :: acc)]

theorem nextOf_lt_length {arena : List (Option Nat)} {i j : Nat}
    (h : nextOf arena i = some j) : i < arena.length := by
  by_contra hle
  rw [nextOf, List.getElem?_eq_none (Nat.le_of_not_lt hle)] at h
  simp at h

theorem chain_dropLast_linked {arena : List (Option Nat)} {b : Nat}
    {ns : List Nat} (hchain : IsChain arena b ns) :
    ∀ x ∈ ns.dropLast, ∃ j, nextOf arena x = some j := by
  induction hchain with
  | last i h => simp
  | cons i j rest h hrest ih =>
      intro x hx
      rw [List.dropLast_cons_of_ne_nil hrest.ne_nil] at hx
      rcases List.mem_cons.mp hx with hx | hx
      · exact ⟨j, hx ▸ h⟩
      · exact ih x hx

theorem chain_length_le {arena : List (Option Nat)} {b : Nat}
    {ns : List Nat} (hchain : IsChain arena b ns) (hnodup : ns.Nodup) :
    ns.length ≤ arena.length + 1 := by
  have hsub : ns.dropLast ⊆ List.range arena.length := by
    intro x hx
    rcases chain_dropLast_linked hchain x hx with ⟨j, hj⟩
    exact List.mem_range.mpr (nextOf_lt_length hj)
  have hnd : ns.dropLast.Nodup := (List.dropLast_sublist ns).nodup hnodup
  have hlen : ns.dropLast.length ≤ arena.length := by
    simpa using (hnd.subperm hsub).length_le
  have : ns.length ≤ ns.dropLast.length + 1 := by
    rw [List.length_dropLast]
    omega
  omega

theorem nextOf_resetStack (st : List Nat) :
    ∀ (arena : List (Option Nat)) (n : Nat),
      nextOf (resetStack arena st) n
        = if n ∈ st then none else nextOf arena n := by
  induction st with
  | nil => intro arena n; simp [resetStack]
  | cons i rest ih =>
      intro arena n
      rw [resetStack, ih]
      by_cases hr : n ∈ rest
      · simp [hr]
      · by_cases hi : n = i
        · subst hi
          have : nextOf (arena.set n none) n = none := by
            by_cases hlen : n < arena.length
            · simp [nextOf, List.getElem?_set_self hlen]
            · have h1 : (arena.set n none).length ≤ n := by
                rw [List.length_set]
                exact Nat.le_of_not_lt hlen
              simp [nextOf, List.getElem?_eq_none h1]
          simp [hr, this]
        · simp [hr, hi, nextOf, List.getElem?_set_ne (Ne.symm hi)]

/-- C6: on a finite acyclic chain, the chain walk of `cleanup_group`
completes within fuel `arena.length + 1` (the loop terminates, having
pushed the whole chain on the auxiliary stack), and afterwards every
node of the chain has its `next_ev` link reset while nodes outside the
chain are untouched. -/
theorem cleanup_group_resets_chain (arena : List (Option Nat)) (b : Nat)
    (ns : List Nat) (hchain : IsChain arena b ns) (hnodup : ns.Nodup) :
    pushChain arena (some b) (arena.length + 1) [] = some ns.reverse ∧
    (∀ n ∈ ns, nextOf (cleanup_group arena b) n = none) ∧
    (∀ n, n ∉ ns → nextOf (cleanup_group arena b) n = nextOf arena n) := by
  have hpush :
      pushChain arena (some b) (arena.length + 1) [] = some ns.reverse := by
    simpa using
      pushChain_complete hchain (arena.length + 1)
        (chain_length_le hchain hnodup) []
  have hclean : cleanup_group arena b = resetStack arena ns.reverse := by
    rw [cleanup_group, hpush]
  refine ⟨hpush, ?_, ?_⟩
  · intro n hn
    rw [hclean, nextOf_resetStack]
    simp [hn]
  · intro n hn
    rw [hclean, nextOf_resetStack]
    simp [hn]

/-- Witness for C6 on the three-node chain `0 → 1 → 2`. -/
theorem cleanup_group_resets_chain_witness :
    pushChain [some 1, some 2, none] (some 0) 4 [] = some [2, 1, 0] ∧
    (∀ n ∈ [0, 1, 2], nextOf (cleanup_group [some 1, some 2, none] 0) n = none) ∧
    (∀ n, n ∉ [0, 1, 2] →
      nextOf (cleanup_group [some 1, some 2, none] 0) n
        = nextOf [some 1, some 2, none] n) :=
  cleanup_group_resets_chain [some 1, some 2, none] 0 [0, 1, 2]
    (IsChain.cons 0 1 [1, 2] rfl
      (IsChain.cons 1 2 [2] rfl (IsChain.last 2 rfl)))
    (by decide)

/-! ### `clear_dep`: dependency-tracker teardown

The fields of `Relay_log_info` read or written by `clear_dep`.  Keys
(`Dependency_key`) and database names are opaque and modelled as `Nat`;
the three condition variables get a ghost `..._signalled` flag that a
broadcast sets, recording that all waiters were woken. -/

def TWO64 : Nat := 2 ^ 64

structure DepState where
  arena : List (Option Nat)
  dep_queue : List Nat
  num_in_flight_trx : Nat
  prev_event : Option Nat
  current_begin_event : Option Nat
  table_map_events : List (Nat × Nat)
  keys_accessed_by_group : List Nat
  dbs_accessed_by_group : List Nat
  dep_full : Bool
  dep_key_lookup : List (Nat × Nat)
  trx_queued : Bool
  num_events_in_current_group : Nat
  dep_empty_cond_signalled : Bool
  dep_full_cond_signalled : Bool
  dep_trx_all_done_cond_signalled : Bool

/-- `Relay_log_info::clear_dep`, line for line: subtract the queued
group count from `num_in_flight_trx` (`ulonglong`, hence mod `2^64`),
clean up every queued group's event chain, clear the queue, the current
group state, the trackers, broadcast the three conditions, drop the
`dep_full` flag, and empty the key-to-last-writer map. -/
def clear_dep (st : DepState) : DepState :=
  { st with
    num_in_flight_trx :=
      (st.num_in_flight_trx + (TWO64 - st.dep_queue.length % TWO64)) % TWO64,
    arena := st.dep_queue.foldl cleanup_group st.arena,
    dep_queue := [],
    prev_event := none,
    current_begin_event := none,
    table_map_events := [],
    keys_accessed_by_group := [],
    dbs_accessed_by_group := [],
    dep_empty_cond_signalled := true,
    dep_full_cond_signalled := true,
    dep_trx_all_done_cond_signalled := true,
    dep_full := false,
    dep_key_lookup := [],
    trx_queued := false,
    num_events_in_current_group := 0 }

/-- C7: after `clear_dep` the pending queue is empty, the
key-to-last-writer map is empty, the full flag is dropped, and the
not-empty, not-full and all-done conditions have all been broadcast, so
no waiter stays blocked on a queue that will never be fed again. -/
theorem clear_dep_teardown (st : DepState) :
    (clear_dep st).dep_queue = [] ∧
    (clear_dep st).dep_key_lookup = [] ∧
    (clear_dep st).dep_full = false ∧
    (clear_dep st).dep_empty_cond_signalled = true ∧
    (clear_dep st).dep_full_cond_signalled = true ∧
    (clear_dep st).dep_trx_all_done_cond_signalled = true := by
  simp [clear_dep]

/-- C9: under the asserted precondition
`num_in_flight_trx >= dep_queue.size()` (and no prior overflow),
`clear_dep` decreases `num_in_flight_trx` by exactly the number of
queued, not-yet-dispatched groups — already-dispatched groups stay
counted — and the invariant that `num_in_flight_trx` bounds the queue
length is preserved. -/
theorem clear_dep_in_flight_accounting (st : DepState)
    (hwrap : st.num_in_flight_trx < TWO64)
    (hinv : st.dep_queue.length ≤ st.num_in_flight_trx) :
    (clear_dep st).num_in_flight_trx
        = st.num_in_flight_trx - st.dep_queue.length ∧
    (clear_dep st).dep_queue.length ≤ (clear_dep st).num_in_flight_trx := by
  have hq : st.dep_queue.length < TWO64 := Nat.lt_of_le_of_lt hinv hwrap
  constructor
  · show (st.num_in_flight_trx + (TWO64 - st.dep_queue.length % TWO64)) % TWO64
        = st.num_in_flight_trx - st.dep_queue.length
    rw [Nat.mod_eq_of_lt hq]
    have h1 : st.num_in_flight_trx + (TWO64 - st.dep_queue.length)
        = (st.num_in_flight_trx - st.dep_queue.length) + TWO64 := by omega
    rw [h1, Nat.add_mod_right, Nat.mod_eq_of_lt (by omega)]
  · show ([] : List Nat).length ≤ _
    simp

/-- Concrete state for the C9 witness: two queued groups, three
transactions in flight. -/
def depStateExample : DepState :=
  { arena := [some 1, none, none]
  , dep_queue := [0, 2]
  , num_in_flight_trx := 3
  , prev_event := some 2
  , current_begin_event := some 2
  , table_map_events := [(5, 0)]
  , keys_accessed_by_group := [4]
  , dbs_accessed_by_group := [1]
  , dep_full := true
  , dep_key_lookup := [(4, 2)]
  , trx_queued := true
  , num_events_in_current_group := 2
  , dep_empty_cond_signalled := false
  , dep_full_cond_signalled := false
  , dep_trx_all_done_cond_signalled := false }

/-- Witness for C9 at `depStateExample`. -/
theorem clear_dep_in_flight_accounting_witness :
    (clear_dep depStateExample).num_in_flight_trx
        = depStateExample.num_in_flight_trx
            - depStateExample.dep_queue.length ∧
    (clear_dep depStateExample).dep_queue.length
        ≤ (clear_dep depStateExample).num_in_flight_trx :=
  clear_dep_in_flight_accounting depStateExample
    (by norm_num [depStateExample, TWO64]) (by norm_num [depStateExample])

/-! ### Committed-group checkpoint queue (`gaq`) -/

/-- Modelled from the spec: the implementation of
`Slave_committed_queue` (the type of `Relay_log_info::gaq`, declared at
rpl_rli.h:572) is not part of this tree.  Per the spec, the queue is an
ordered-by-group-index sequence of descriptors for in-flight groups;
`lwm` is the durable low-water-mark (number of retired groups) and
`window` holds the completion flag of groups `lwm`, `lwm + 1`, … in
index order. -/
structure GAQ where
  lwm : Nat
  window : List Bool

def gaq_init : GAQ := { lwm := 0, window := [] }

/-- Operations on the checkpoint queue: a group assignment appends a
not-yet-complete descriptor; a worker completion report marks the
descriptor at window offset `j` complete; a checkpoint pass retires the
longest complete head run and advances the low-water-mark past it. -/
inductive GaqOp where
  | assign : GaqOp
  | markDone (j : Nat) : GaqOp
  | checkpoint : GaqOp

def gaq_step (g : GAQ) : GaqOp → GAQ
  | .assign => { g with window := g.window ++ [false] }
  | .markDone j => { g with window := g.window.set j true }
  | .checkpoint =>
      { lwm := g.lwm + (g.window.takeWhile id).length
      , window := g.window.dropWhile id }

def gaq_run (g : GAQ) : List GaqOp → GAQ
  | [] => g
  | op :: ops => gaq_run (gaq_step g op) ops

/-- Absolute group index reported complete by one operation, if any,
added to the accumulator `S`. -/
def gaq_report_of (g : GAQ) (S : List Nat) : GaqOp → List Nat
  | .markDone j => (g.lwm + j) :: S
  | _ => S

/-- Absolute group indices of all completion reports in a trace,
accumulated while running it. -/
def gaq_reports (g : GAQ) (S : List Nat) : List GaqOp → List Nat
  | [] => S
  | op :: ops => gaq_reports (gaq_step g op) (gaq_report_of g S op) ops

/-- Invariant tying a queue state to the set `S` of reported
completions: every retired group and every descriptor marked complete
was reported. -/
def GaqInv (g : GAQ) (S : List Nat) : Prop :=
  (∀ i, i < g.lwm → i ∈ S) ∧
  (∀ j, g.window.getD j false = true → g.lwm + j ∈ S)

theorem getD_of_lt_takeWhile_length (l : List Bool) (j : Nat) :
    j < (l.takeWhile id).length → l.getD j false = true := by
  induction l generalizing j with
  | nil => simp
  | cons a l ih =>
      cases a with
      | false => simp [List.takeWhile_cons]
      | true =>
          cases j with
          | zero => simp
          | succ j =>
              intro hj
              simp only [List.takeWhile_cons, id_eq, if_true,
                List.length_cons, Nat.succ_lt_succ_iff] at hj
              simpa using ih j hj

theorem getD_dropWhile_shift (l : List Bool) (j : Nat) :
    (l.dropWhile id).getD j false
      = l.getD ((l.takeWhile id).length + j) false := by
  induction l with
  | nil => simp
  | cons a l ih =>
      cases a with
      | false => simp [List.dropWhile_cons, List.takeWhile_cons]
      | true =>
          have h1 : (List.takeWhile id (true :: l)).length + j
              = ((List.takeWhile id l).length + j) + 1 := by
            simp [List.takeWhile_cons]
            omega
          have h2 : List.dropWhile id (true :: l) = List.dropWhile id l := by
            simp [List.dropWhile_cons]
          rw [h1, h2, List.getD_cons_succ]
          exact ih

theorem getD_at_takeWhile_length (l : List Bool) :
    (l.takeWhile id).length < l.length →
    l.getD (l.takeWhile id).length false = false := by
  induction l with
  | nil => simp
  | cons a l ih =>
      cases a with
      | false => simp [List.takeWhile_cons]
      | true =>
          rw [List.takeWhile_cons]
          simpa using ih

theorem gaq_inv_step (g : GAQ) (S : List Nat) (op : GaqOp)
    (hinv : GaqInv g S) :
    GaqInv (gaq_step g op) (gaq_report_of g S op) := by
  obtain ⟨hlow, hwin⟩ := hinv
  cases op with
  | assign =>
      refine ⟨hlow, ?_⟩
      intro j hj
      apply hwin
      rw [gaq_step] at hj
      by_cases hlen : j < g.window.length
      · simp only [List.getD_eq_getElem?_getD, List.getElem?_append,
          if_pos hlen] at hj
        simpa using hj
      · exfalso
        simp only [List.getD_eq_getElem?_getD, List.getElem?_append,
          if_neg hlen] at hj
        cases hk : j - g.window.length with
        | zero => rw [hk] at hj; simp at hj
        | succ n => rw [hk] at hj; simp at hj
  | markDone j0 =>
      refine ⟨fun i hi => List.mem_cons_of_mem _ (hlow i hi), ?_⟩
      intro j hj
      by_cases hjj : j = j0
      · subst hjj
        exact List.mem_cons_self _ _
      · apply List.mem_cons_of_mem
        apply hwin
        rw [gaq_step] at hj
        simpa [List.getElem?_set_ne (Ne.symm hjj)] using hj
  | checkpoint =>
      constructor
      · intro i hi
        rw [gaq_step] at hi
        simp only at hi
        by_cases hil : i < g.lwm
        · exact hlow i hil
        · have hj : i - g.lwm < (g.window.takeWhile id).length := by omega
          have := hwin (i - g.lwm)
            (getD_of_lt_takeWhile_length g.window (i - g.lwm) hj)
          have hie : g.lwm + (i - g.lwm) = i := by omega
          rwa [hie] at this
      · intro j hj
        rw [gaq_step] at hj
        simp only at hj
        rw [getD_dropWhile_shift] at hj
        have := hwin ((g.window.takeWhile id).length + j) hj
        rw [gaq_step]
        simpa [Nat.add_assoc] using this

theorem gaq_inv_run (ops : List GaqOp) :
    ∀ (g : GAQ) (S : List Nat), GaqInv g S →
      GaqInv (gaq_run g ops) (gaq_reports g S ops) := by
  induction ops with
  | nil => intro g S h; exact h
  | cons op ops ih =>
      intro g S h
      rw [gaq_run, gaq_reports]
      exact ih _ _ (gaq_inv_step g S op h)

/-- C1: for every interleaving of worker completion reports with
assignments and checkpoint passes, the low-water-mark never advances
past the index of the oldest group not reported complete; and a
checkpoint pass moves the mark exactly over the maximal contiguous run
of completed descriptors at the head of the index-ordered window. -/
theorem gaq_lwm_never_passes_oldest_incomplete (ops : List GaqOp) (m : Nat)
    (hm : m ∉ gaq_reports gaq_init [] ops) :
    (gaq_run gaq_init ops).lwm ≤ m ∧
    (∀ g : GAQ,
      (gaq_step g .checkpoint).lwm
          = g.lwm + (g.window.takeWhile id).length ∧
      (∀ j, j < (g.window.takeWhile id).length →
        g.window.getD j false = true) ∧
      ((g.window.takeWhile id).length < g.window.length →
        g.window.getD (g.window.takeWhile id).length false = false)) := by
  constructor
  · have hinv : GaqInv (gaq_run gaq_init ops) (gaq_reports gaq_init [] ops) :=
      gaq_inv_run ops gaq_init [] ⟨by simp [gaq_init], by simp [gaq_init]⟩
    by_contra hlt
    exact hm (hinv.1 m (Nat.lt_of_not_le hlt))
  · intro g
    exact ⟨rfl, getD_of_lt_takeWhile_length g.window,
      getD_at_takeWhile_length g.window⟩

/-- Witness for C1: three groups assigned, completions reported out of
order (group 1 before group 0), group 2 never reported; the mark stops
at 2. -/
theorem gaq_lwm_witness :
    (gaq_run gaq_init
      [.assign, .assign, .assign, .markDone 1, .checkpoint,
       .markDone 0, .checkpoint]).lwm ≤ 2 ∧
    (∀ g : GAQ,
      (gaq_step g .checkpoint).lwm
          = g.lwm + (g.window.takeWhile id).length ∧
      (∀ j, j < (g.window.takeWhile id).length →
        g.window.getD j false = true) ∧
      ((g.window.takeWhile id).length < g.window.length →
        g.window.getD (g.window.takeWhile id).length false = false)) :=
  gaq_lwm_never_passes_oldest_incomplete
    [.assign, .assign, .assign, .markDone 1, .checkpoint,
     .markDone 0, .checkpoint] 2 (by decide)

/-! ### Commit-order manager -/

/-- Modelled from the spec: `Commit_order_manager` (forward-declared at
rpl_rli.h:38, held in `Relay_log_info::commit_order_mngr` with accessors
at lines 999-1007) is implemented outside this tree.  Per the spec the
manager records which groups have committed and grants a worker's
request to commit group `G` immediately exactly when `G` is the oldest
still-uncommitted group; `grant_log` is the order in which grants were
issued. -/
structure CommitOrderManager where
  committed : List Nat
  grant_log : List Nat

def com_init : CommitOrderManager := { committed := [], grant_log := [] }

/-- A worker requests permission to commit group `G`.  The request is
granted immediately iff every group with smaller index is committed and
`G` itself is not — i.e. `G` is the oldest still-uncommitted group.
Otherwise the worker blocks: the state is unchanged and the worker
re-requests after being woken. -/
def com_request (m : CommitOrderManager) (G : Nat) :
    CommitOrderManager × Bool :=
  if (∀ i, i < G → i ∈ m.committed) ∧ G ∉ m.committed
  then ({ committed := G :: m.committed
        , grant_log := m.grant_log ++ [G] }, true)
  else (m, false)

/-- Run a sequence of commit requests (any interleaving of workers,
including retries of blocked workers). -/
def com_run (m : CommitOrderManager) : List Nat → CommitOrderManager
  | [] => m
  | G :: Gs => com_run (com_request m G).1 Gs

/-- Invariant: the committed set is exactly the contiguous range below
`grant_log.length`, and the grant log is that range in index order. -/
def ComInv (m : CommitOrderManager) : Prop :=
  (∀ i, i ∈ m.committed ↔ i < m.grant_log.length) ∧
  m.grant_log = List.range m.grant_log.length

theorem com_request_grant_iff (m : CommitOrderManager) (G : Nat) :
    (com_request m G).2 = true ↔
      (G ∉ m.committed ∧ ∀ i, i < G → i ∈ m.committed) := by
  by_cases h : (∀ i, i < G → i ∈ m.committed) ∧ G ∉ m.committed
  · rw [com_request, if_pos h]
    simpa using And.intro h.2 h.1
  · rw [com_request, if_neg h]
    simp only [Bool.false_eq_true, false_iff]
    intro hc
    exact h ⟨hc.2, hc.1⟩

theorem com_inv_request (m : CommitOrderManager) (G : Nat)
    (hinv : ComInv m) : ComInv (com_request m G).1 := by
  obtain ⟨hmem, hlog⟩ := hinv
  by_cases h : (∀ i, i < G → i ∈ m.committed) ∧ G ∉ m.committed
  · have hGn : G = m.grant_log.length := by
      obtain ⟨hall, hG⟩ := h
      have hle : G ≤ m.grant_log.length := by
        by_contra hgt
        have := (hmem m.grant_log.length).mp
          (hall m.grant_log.length (by omega))
        omega
      have hge : ¬ G < m.grant_log.length := fun hlt => hG ((hmem G).mpr hlt)
      omega
    rw [com_request, if_pos h]
    constructor
    · intro i
      simp only [List.mem_cons, List.length_append, List.length_singleton,
        hmem i]
      omega
    · simp only [List.length_append, List.length_singleton]
      rw [List.range_succ, ← hlog, hGn]
  · rw [com_request, if_neg h]
    exact ⟨hmem, hlog⟩

theorem com_inv_run (reqs : List Nat) :
    ∀ m : CommitOrderManager, ComInv m → ComInv (com_run m reqs) := by
  induction reqs with
  | nil => intro m h; exact h
  | cons G Gs ih =>
      intro m h
      rw [com_run]
      exact ih _ (com_inv_request m G h)

/-- C2: a commit request for group `G` is granted immediately iff `G`
is the oldest still-uncommitted group (all smaller indices committed,
`G` not); consequently, over any interleaving of worker requests the
sequence of grants is exactly the group indices in increasing order —
externally visible commits follow group-index order regardless of apply
completion order. -/
theorem commit_order_manager_grants_in_index_order
    (m : CommitOrderManager) (G : Nat) (reqs : List Nat) :
    ((com_request m G).2 = true ↔
      (G ∉ m.committed ∧ ∀ i, i < G → i ∈ m.committed)) ∧
    (com_run com_init reqs).grant_log
        = List.range (com_run com_init reqs).grant_log.length := by
  refine ⟨com_request_grant_iff m G, ?_⟩
  have : ComInv (com_run com_init reqs) := by
    apply com_inv_run
    constructor
    · intro i; simp [com_init]
    · simp [com_init]
  exact this.2

/-! ### Coordinator group status (`mts_group_status`) -/

/-- The coordinator's group status, exactly the four states of the
source enum (rpl_rli.h:624-635). -/
inductive MtsGroupStatus where
  | MTS_NOT_IN_GROUP
  | MTS_IN_GROUP
  | MTS_END_GROUP
  | MTS_KILLED_GROUP
deriving DecidableEq, Fintype

/-- Stimuli the coordinator reacts to while distributing events. -/
inductive MtsEvent where
  | nonterminal  -- a not-terminal event of the current group scheduled
  | terminal     -- the group's terminal event (commit marker or autocommit)
  | synced       -- coordinator finished synchronizing with the workers
deriving DecidableEq, Fintype

/-- Modelled from the spec: the transition logic driving
`mts_group_status` lives in the coordinator loop (sql/slave.cc), which
is not part of this tree; only the enum and its transition diagram
comment are.  A stop request (`killed`) moves every state to
`MTS_KILLED_GROUP`, which is absorbing; otherwise the first non-terminal
event opens a group, the terminal event ends it, and worker
synchronization loops back to `MTS_NOT_IN_GROUP`. -/
def mts_group_status_step (killed : Bool) (st : MtsGroupStatus)
    (ev : MtsEvent) : MtsGroupStatus :=
  if killed then .MTS_KILLED_GROUP
  else
    match st, ev with
    | .MTS_KILLED_GROUP, _ => .MTS_KILLED_GROUP
    | .MTS_NOT_IN_GROUP, .nonterminal => .MTS_IN_GROUP
    | .MTS_NOT_IN_GROUP, _ => .MTS_NOT_IN_GROUP
    | .MTS_IN_GROUP, .nonterminal => .MTS_IN_GROUP
    | .MTS_IN_GROUP, .terminal => .MTS_END_GROUP
    | .MTS_IN_GROUP, .synced => .MTS_IN_GROUP
    | .MTS_END_GROUP, .synced => .MTS_NOT_IN_GROUP
    | .MTS_END_GROUP, _ => .MTS_END_GROUP

/-- The transitions the claim allows: stay put, follow the cycle
`NOT_IN_GROUP → IN_GROUP → END_GROUP → NOT_IN_GROUP`, or drop into the
killed state from anywhere. -/
def mts_transition_allowed (s t : MtsGroupStatus) : Prop :=
  s = t ∨
  (s = .MTS_NOT_IN_GROUP ∧ t = .MTS_IN_GROUP) ∨
  (s = .MTS_IN_GROUP ∧ t = .MTS_END_GROUP) ∨
  (s = .MTS_END_GROUP ∧ t = .MTS_NOT_IN_GROUP) ∨
  t = .MTS_KILLED_GROUP

instance (s t : MtsGroupStatus) : Decidable (mts_transition_allowed s t) := by
  unfold mts_transition_allowed
  infer_instance

/-- C8: the group status ranges over exactly four states; every step of
the machine is a self-loop, a move along the cycle
`NOT_IN_GROUP → IN_GROUP → END_GROUP → NOT_IN_GROUP`, or a drop into
`MTS_KILLED_GROUP`; a stop request sends any state to
`MTS_KILLED_GROUP`; and `MTS_KILLED_GROUP` is absorbing. -/
theorem mts_group_status_machine :
    Fintype.card MtsGroupStatus = 4 ∧
    (∀ (killed : Bool) (st : MtsGroupStatus) (ev : MtsEvent),
      mts_transition_allowed st (mts_group_status_step killed st ev)) ∧
    (∀ (st : MtsGroupStatus) (ev : MtsEvent),
      mts_group_status_step true st ev = .MTS_KILLED_GROUP) ∧
    (∀ (killed : Bool) (ev : MtsEvent),
      mts_group_status_step killed .MTS_KILLED_GROUP ev
        = .MTS_KILLED_GROUP) := by
  refine ⟨?_, ?_, ?_, ?_⟩ <;> decide

end RplRli
